import Mathlib

/-!
# reverse-words: a verification development over `main.go`

The Go program is embedded shallowly:

* a Go `string` is its byte sequence (`GoString`), a `[]rune` is a list of
  code points; the conversions `[]rune(s)` and `string(runes)` are the
  language's UTF-8 decoding and encoding, including the replacement of
  ill-formed input by U+FFFD;
* the `for i, j := 0, len(runes)-1; i < j; ...` loop of `reverse` is a
  recursive function over the slice and the two `int` indices;
* the handlers are functions from the metrics state (the two Prometheus
  collectors) and the request to an outcome: a response together with the new
  metrics state, or a panic;
* the two calls into `encoding/json` are modelled as far as the handler
  observes them: `jsonDecode` for `Decode` on the request body and
  `jsonMarshal` for `Marshal` of an `Output`.
-/

namespace ReverseWords

/-! ## Go strings and runes -/

/-- A Go `string`: an immutable sequence of bytes (each entry is meant to be
below 256). -/
abbrev GoString := List Nat

/-- A Go `rune` held in a `[]rune`. Every rune of this program is produced by
decoding a string, so it is kept as the natural number of its code point
(the value `uint32(r)` that the encoder inspects). -/
abbrev Rune := Nat

/-- `utf8.RuneError`, U+FFFD. -/
def runeError : Nat := 0xFFFD

/-- `utf8.MaxRune`, U+10FFFF. -/
def maxRune : Nat := 0x10FFFF

/-- First code point of the surrogate range. -/
def surrogateMin : Nat := 0xD800

/-- Last code point of the surrogate range. -/
def surrogateMax : Nat := 0xDFFF

/-- A continuation byte: `locb <= b && b <= hicb`, that is `0x80..0xBF`. -/
def isCont (b : Nat) : Bool := 0x80 ≤ b && b ≤ 0xBF

/-- Decoding of the first rune of a non-empty string (Go's `decoderune`,
preceded by the ASCII fast path of `range`): the rune and the number of bytes
it takes. Ill-formed, over-long, surrogate and out-of-range sequences give
`runeError` with width 1. The masks `b & 0x1F`, `b & 0x0F`, `b & 0x07`,
`b & 0x3F` are written `b % 32`, `b % 16`, `b % 8`, `b % 64`, the shifts as
multiplications. -/
def decodeRune (s : GoString) : Rune × Nat :=
  match s with
  | [] => (runeError, 1)
  | b0 :: rest =>
    if b0 < 0x80 then (b0, 1)
    else if 0xC0 ≤ b0 ∧ b0 < 0xE0 then
      match rest with
      | b1 :: _ =>
        let r := (b0 % 32) * 64 + b1 % 64
        if isCont b1 ∧ 0x7F < r then (r, 2) else (runeError, 1)
      | _ => (runeError, 1)
    else if 0xE0 ≤ b0 ∧ b0 < 0xF0 then
      match rest with
      | b1 :: b2 :: _ =>
        let r := (b0 % 16) * 4096 + (b1 % 64) * 64 + b2 % 64
        if isCont b1 ∧ isCont b2 ∧ 0x7FF < r ∧ ¬ (surrogateMin ≤ r ∧ r ≤ surrogateMax) then
          (r, 3)
        else (runeError, 1)
      | _ => (runeError, 1)
    else if 0xF0 ≤ b0 ∧ b0 < 0xF8 then
      match rest with
      | b1 :: b2 :: b3 :: _ =>
        let r := (b0 % 8) * 262144 + (b1 % 64) * 4096 + (b2 % 64) * 64 + b3 % 64
        if isCont b1 ∧ isCont b2 ∧ isCont b3 ∧ 0xFFFF < r ∧ r ≤ maxRune then (r, 4)
        else (runeError, 1)
      | _ => (runeError, 1)
    else (runeError, 1)

/-- The loop of `[]rune(s)`: decode a rune, advance by its width, until the
string is used up. `fuel` bounds the number of iterations. -/
def decodeRunesAux : Nat → GoString → List Rune
  | 0, _ => []
  | _ + 1, [] => []
  | fuel + 1, b :: rest =>
    let d := decodeRune (b :: rest)
    d.1 :: decodeRunesAux fuel ((b :: rest).drop d.2)

/-- The conversion `[]rune(s)`. Every iteration consumes at least one byte, so
`s.length` iterations are enough (`decodeRunesAux_fuel`). -/
def decodeRunes (s : GoString) : List Rune := decodeRunesAux s.length s

/-- Encoding of one rune (Go's `encoderune`): surrogates and values above
`maxRune` are encoded as `runeError`. `byte(r>>6)` is `r / 64`,
`byte(r) & 0x3F` is `r % 64`, and the or with the marker bits is an
addition. -/
def encodeRune (r : Nat) : GoString :=
  if r ≤ 0x7F then [r]
  else if r ≤ 0x7FF then [0xC0 + r / 64, 0x80 + r % 64]
  else if r > maxRune ∨ (surrogateMin ≤ r ∧ r ≤ surrogateMax) then [0xEF, 0xBF, 0xBD]
  else if r ≤ 0xFFFF then [0xE0 + r / 4096, 0x80 + r / 64 % 64, 0x80 + r % 64]
  else [0xF0 + r / 262144, 0x80 + r / 4096 % 64, 0x80 + r / 64 % 64, 0x80 + r % 64]

/-- The conversion `string(runes)`. -/
def encodeRunes (runes : List Rune) : GoString :=
  runes.flatMap encodeRune

/-- A Go string literal: the UTF-8 encoding of its characters. -/
def lit (s : String) : GoString := encodeRunes (s.data.map Char.toNat)

/-! ## `reverse` -/

/-- The statement `runes[i], runes[j] = runes[j], runes[i]`: both operands are
read first, then both are assigned. -/
def swap (runes : List Rune) (i j : Int) : List Rune :=
  let a := runes.getD i.toNat 0
  let b := runes.getD j.toNat 0
  (runes.set i.toNat b).set j.toNat a

/-- The loop `for ...; i < j; i, j = i+1, j-1 { swap }` from the state
`(runes, i, j)`. `fuel` bounds the number of iterations. -/
def reverseLoop : Nat → List Rune → Int → Int → List Rune
  | 0, runes, _, _ => runes
  | fuel + 1, runes, i, j =>
    if i < j then reverseLoop fuel (swap runes i j) (i + 1) (j - 1) else runes

/-- The function `reverse` of `main.go`. The loop runs `len(runes)/2` times,
so `len(runes)` iterations are enough (`reverseLoop_eq_reverse`). -/
def reverse (s : GoString) : GoString :=
  let runes := decodeRunes s
  encodeRunes (reverseLoop runes.length runes 0 ((runes.length : Int) - 1))

/-- A Unicode scalar value: a code point outside the surrogate range and not
above `maxRune`. -/
def isScalar (r : Nat) : Prop := r < surrogateMin ∨ (surrogateMax < r ∧ r ≤ maxRune)

instance (r : Nat) : Decidable (isScalar r) := by unfold isScalar; infer_instance

/-! ## Metrics -/

/-- The two collectors of `main.go`: the counter `totalWordsReversed` and the
counter vector `endpointsAccessed`, indexed by the value of its `endpoint`
label. A label that was never used reads 0. Counts are natural numbers. -/
structure Metrics where
  totalWordsReversed : Nat
  endpointsAccessed : GoString → Nat

/-- The metrics at process start: nothing counted yet. -/
def Metrics.zero : Metrics := ⟨0, fun _ => 0⟩

/-- The call `totalWordsReversed.Inc()`. -/
def Metrics.incTotalWordsReversed (m : Metrics) : Metrics :=
  { m with totalWordsReversed := m.totalWordsReversed + 1 }

/-- The call `endpointsAccessed.WithLabelValues(label).Inc()`. -/
def Metrics.incEndpoint (m : Metrics) (label : GoString) : Metrics :=
  { m with endpointsAccessed := fun l =>
      if l = label then m.endpointsAccessed l + 1 else m.endpointsAccessed l }

/-! ## Requests and responses -/

/-- The struct `Input`. -/
structure Input where
  Word : GoString
deriving DecidableEq

/-- The struct `Output`. -/
structure Output where
  ReverseWord : GoString
deriving DecidableEq

/-- A JSON document as far as this program produces one: an object whose
members are strings, in order. -/
structure Json where
  fields : List (GoString × GoString)
deriving DecidableEq

/-- What a handler wrote to the `http.ResponseWriter`: a JSON document (the
bytes returned by `json.Marshal`, kept as the document they denote) or plain
text. -/
inductive Body where
  | json (js : Json)
  | text (t : GoString)
deriving DecidableEq

/-- The response of a handler: status code, the `Content-Type` header when the
handler (or `http.Error`) sets one, and the body. -/
structure Response where
  status : Nat
  contentType : Option GoString
  body : Body
deriving DecidableEq

/-- The result of running a handler: it returned after writing `resp`, or it
panicked with the error `err` before writing anything; `m` is the metrics
state it leaves behind. -/
inductive Outcome where
  | done (resp : Response) (m : Metrics)
  | panic (err : GoString) (m : Metrics)

/-- Whether the handler panicked. -/
def Outcome.panicked : Outcome → Bool
  | .done _ _ => false
  | .panic _ _ => true

/-- The response that was written, if any. -/
def Outcome.response : Outcome → Option Response
  | .done resp _ => some resp
  | .panic _ _ => none

/-- The metrics state after the handler. -/
def Outcome.metrics : Outcome → Metrics
  | .done _ m => m
  | .panic _ m => m

/-- The state after `err := decoder.Decode(&word)`: the value of `word` and,
when `err != nil`, the text `err.Error()`. The decoder is modelled by
`jsonDecode`. -/
structure Decoded where
  word : Input
  err : Option GoString
deriving DecidableEq

/-- The process environment, as seen through `os.LookupEnv`. -/
abbrev Env := GoString → Option GoString

/-! ## The functions of `main.go` -/

/-- The function `getEnv`. -/
def getEnv (env : Env) (varName defaultValue : GoString) : GoString :=
  match env varName with
  | some varValue => varValue
  | none => defaultValue

/-- The handler `ReturnRelease`. It sets no `Content-Type` itself. -/
def ReturnRelease (env : Env) (m : Metrics) : Outcome :=
  let release := getEnv env (lit "RELEASE") (lit "NotSet")
  let releaseString := lit "Reverse Words Release: " ++ release
  .done ⟨200, none, .text releaseString⟩ (m.incEndpoint (lit "release"))

/-- The handler `ReturnHealth`. -/
def ReturnHealth (m : Metrics) : Outcome :=
  let health := lit "Healthy"
  .done ⟨200, none, .text health⟩ (m.incEndpoint (lit "health"))

/-- Lines 61-66 of `ReverseWord`: the value the handler panics with, if it
does: a decoding error whose text is not `EOF`. -/
def decodePanic (err : Option GoString) : Option GoString :=
  match err with
  | some e => if e ≠ lit "EOF" then some e else none
  | none => none

/-- Lines 67-73 of `ReverseWord`: the value of the variable `reverseWord`. -/
def reverseWordOf (word : Input) : GoString :=
  if word.Word.length < 1 then lit "detceted drow oN" else reverse word.Word

/-- The handler `ReverseWord`. `marshal` stands for `json.Marshal` applied to
an `Output`; `http.Error` answers with the given status, the content type
`text/plain; charset=utf-8` and the error text followed by a newline. The
`log.Println` calls only write to the log and are left out. -/
def ReverseWord (marshal : Output → Except GoString Json) (m : Metrics) (d : Decoded) :
    Outcome :=
  match decodePanic d.err with
  | some e => .panic e m
  | none =>
    let reverseWord := reverseWordOf d.word
    let m1 := m.incTotalWordsReversed
    let output : Output := ⟨reverseWord⟩
    match marshal output with
    | .error e =>
      .done ⟨500, some (lit "text/plain; charset=utf-8"), .text (e ++ [0x0A])⟩ m1
    | .ok js =>
      .done ⟨200, some (lit "application/json"), .json js⟩ (m1.incEndpoint (lit "reverseword"))

/-- The coercion of a string to valid UTF-8 done by `encoding/json` when it
writes a string: ill-formed bytes become U+FFFD. -/
def toValidUTF8 (s : GoString) : GoString := encodeRunes (decodeRunes s)

/-- The function `json.Marshal` on an `Output`: the member `reverse_word` is
left out when the string is empty (`omitempty`). A struct with one string
field is always serializable, so no error is returned. -/
def jsonMarshal (o : Output) : Except GoString Json :=
  .ok ⟨if o.ReverseWord.length = 0 then [] else [(lit "reverse_word", toValidUTF8 o.ReverseWord)]⟩

/-- A request as dispatched by the router of `main`: `GET /`, `GET /health`,
or `POST /` together with the result of decoding its body. -/
inductive Request where
  | getRelease
  | getHealth
  | postReverseWord (d : Decoded)

/-- The routes registered in `main` for the three handlers. -/
def handle (env : Env) (marshal : Output → Except GoString Json) (m : Metrics) :
    Request → Outcome
  | .getRelease => ReturnRelease env m
  | .getHealth => ReturnHealth m
  | .postReverseWord d => ReverseWord marshal m d

/-- Whether the request is one for `ReverseWord`. -/
def Request.isReverseWord : Request → Bool
  | .postReverseWord _ => true
  | _ => false

/-- Whether the handler of the request panics: only `ReverseWord` can. -/
def Request.faults : Request → Bool
  | .postReverseWord d => (decodePanic d.err).isSome
  | _ => false

/-- A sequence of requests served one after the other, as long as none
panics: the result is `none` as soon as one does (the server itself would
recover the panic, drop the connection and go on with the metrics as the
panicking handler left them, that is unchanged). -/
def run (env : Env) (marshal : Output → Except GoString Json) :
    Metrics → List Request → Option Metrics
  | m, [] => some m
  | m, r :: rs =>
    match handle env marshal m r with
    | .done _ m1 => run env marshal m1 rs
    | .panic _ _ => none

/-! ## The JSON decoder

`json.NewDecoder(r.Body).Decode(&word)` belongs to the standard library. It is
modelled here as far as the handler can observe it: which value of `word` and
which error it returns for a given body. -/

/-- A JSON value as read by the decoder. The text of a number is not kept. -/
inductive JValue where
  | null
  | bool (b : Bool)
  | number
  | string (s : GoString)
  | array (elems : List JValue)
  | object (members : List (GoString × JValue))

/-- The result of scanning a prefix of the input: the value read and the
input left over, or the text of the error. -/
inductive Scan (α : Type) where
  | ok (a : α) (rest : GoString)
  | fail (msg : GoString)

/-- The text of `io.ErrUnexpectedEOF`: the input ends inside a value. -/
def errUnexpectedEOF : GoString := lit "unexpected EOF"

/-- The text of a `SyntaxError` of the scanner, up to its fixed beginning (the
message goes on with the offending byte and the context). -/
def errInvalidCharacter : GoString := lit "invalid character"

/-- The text of the `SyntaxError` for nesting deeper than 10000. -/
def errMaxDepth : GoString := lit "exceeded max depth"

/-- The text of an `UnmarshalTypeError`, up to its fixed beginning (the message
goes on with the JSON kind and the Go type). -/
def errCannotUnmarshal : GoString := lit "json: cannot unmarshal"

/-- The scanner's `isSpace`: space, tab, carriage return, line feed. -/
def isSpace (c : Nat) : Bool := c = 0x20 || c = 0x09 || c = 0x0D || c = 0x0A

/-- Skips leading white space. -/
def skipWS : GoString → GoString
  | [] => []
  | c :: rest => if isSpace c then skipWS rest else c :: rest

/-- The value of a hexadecimal digit. -/
def hexVal (c : Nat) : Option Nat :=
  if 0x30 ≤ c ∧ c ≤ 0x39 then some (c - 0x30)
  else if 0x61 ≤ c ∧ c ≤ 0x66 then some (c - 0x61 + 10)
  else if 0x41 ≤ c ∧ c ≤ 0x46 then some (c - 0x41 + 10)
  else none

/-- The scanner's states inside a string literal: plain, after a backslash,
and inside a `\u` escape with `k + 1` hexadecimal digits still to come. -/
inductive StrState where
  | plain
  | esc
  | hex (k : Nat)

/-- Scans a string literal from behind its opening quote: the raw text up to
the closing quote (collected in `acc`, reversed) and the input after it. -/
def scanStr : StrState → GoString → GoString → Scan GoString
  | _, _, [] => .fail errUnexpectedEOF
  | .plain, acc, c :: rest =>
    if c = 0x22 then .ok acc.reverse rest
    else if c = 0x5C then scanStr .esc (c :: acc) rest
    else if c < 0x20 then .fail errInvalidCharacter
    else scanStr .plain (c :: acc) rest
  | .esc, acc, c :: rest =>
    if c = 0x22 ∨ c = 0x5C ∨ c = 0x2F ∨ c = 0x62 ∨ c = 0x66 ∨ c = 0x6E ∨ c = 0x72 ∨ c = 0x74 then
      scanStr .plain (c :: acc) rest
    else if c = 0x75 then scanStr (.hex 3) (c :: acc) rest
    else .fail errInvalidCharacter
  | .hex k, acc, c :: rest =>
    if (hexVal c).isSome then
      scanStr (match k with | 0 => .plain | j + 1 => .hex j) (c :: acc) rest
    else .fail errInvalidCharacter

/-- The function `getu4` without the leading `\u`: the number written by the
first four bytes when they are hexadecimal digits. -/
def hex4 (s : GoString) : Option Nat :=
  match s with
  | a :: b :: c :: d :: _ =>
    match hexVal a, hexVal b, hexVal c, hexVal d with
    | some x, some y, some z, some w => some (((x * 16 + y) * 16 + z) * 16 + w)
    | _, _, _, _ => none
  | _ => none

/-- The function `getu4`: the number of a `\uXXXX` escape at the start of
the input. -/
def getu4 (s : GoString) : Option Nat :=
  match s with
  | b :: u :: rest => if b = 0x5C ∧ u = 0x75 then hex4 rest else none
  | _ => none

/-- The byte an escape letter stands for: `\b`, `\f`, `\n`, `\r`, `\t`; a
quote, backslash or slash stands for itself. -/
def escapeByte (c : Nat) : Nat :=
  if c = 0x62 then 0x08
  else if c = 0x66 then 0x0C
  else if c = 0x6E then 0x0A
  else if c = 0x72 then 0x0D
  else if c = 0x74 then 0x09
  else c

/-- The function `unquote` on the raw text of a scanned string literal:
escapes are replaced, a `\u` surrogate pair becomes one character, a lone
surrogate and every ill-formed UTF-8 byte become U+FFFD. `fuel` bounds the
number of steps. -/
def unquoteAux : Nat → GoString → GoString
  | 0, _ => []
  | _ + 1, [] => []
  | fuel + 1, c :: rest =>
    if c = 0x5C then
      match rest with
      | [] => []
      | e :: rest1 =>
        if e = 0x75 then
          let rr := (hex4 rest1).getD runeError
          let rest2 := rest1.drop 4
          if surrogateMin ≤ rr ∧ rr ≤ surrogateMax then
            match getu4 rest2 with
            | some rr1 =>
              if rr < 0xDC00 ∧ 0xDC00 ≤ rr1 ∧ rr1 ≤ surrogateMax then
                encodeRune ((rr - 0xD800) * 1024 + (rr1 - 0xDC00) + 0x10000)
                  ++ unquoteAux fuel (rest2.drop 6)
              else encodeRune runeError ++ unquoteAux fuel rest2
            | none => encodeRune runeError ++ unquoteAux fuel rest2
          else encodeRune rr ++ unquoteAux fuel rest2
        else escapeByte e :: unquoteAux fuel rest1
    else if c < 0x80 then c :: unquoteAux fuel rest
    else
      let d := decodeRune (c :: rest)
      encodeRune d.1 ++ unquoteAux fuel ((c :: rest).drop d.2)

/-- The function `unquote`; every step consumes at least one byte. -/
def unquote (raw : GoString) : GoString := unquoteAux raw.length raw

/-- The scanner's states inside a number: after the sign, after a leading
zero, in the integer digits, after the point, in the fraction digits, after
the exponent letter, after the exponent sign, in the exponent digits. -/
inductive NumState where
  | neg
  | zero
  | int
  | dot
  | frac
  | exp
  | expSign
  | expDigits
deriving DecidableEq

/-- Whether a number may end in this state. -/
def NumState.complete : NumState → Bool
  | .zero | .int | .frac | .expDigits => true
  | _ => false

/-- A byte `0..9`. -/
def isDigit (c : Nat) : Bool := 0x30 ≤ c && c ≤ 0x39

/-- One step of the scanner inside a number: the next state while the byte
belongs to the number, `none` when it does not. -/
def NumState.step (st : NumState) (c : Nat) : Option NumState :=
  match st with
  | .neg => if c = 0x30 then some .zero else if isDigit c then some .int else none
  | .zero => if c = 0x2E then some .dot else if c = 0x65 ∨ c = 0x45 then some .exp else none
  | .int =>
    if isDigit c then some .int
    else if c = 0x2E then some .dot else if c = 0x65 ∨ c = 0x45 then some .exp else none
  | .dot => if isDigit c then some .frac else none
  | .frac => if isDigit c then some .frac else if c = 0x65 ∨ c = 0x45 then some .exp else none
  | .exp =>
    if c = 0x2B ∨ c = 0x2D then some .expSign else if isDigit c then some .expDigits else none
  | .expSign => if isDigit c then some .expDigits else none
  | .expDigits => if isDigit c then some .expDigits else none

/-- Scans the rest of a number: it ends before the first byte that does not
belong to it, or at the end of the input. -/
def scanNum : NumState → GoString → Scan JValue
  | st, [] => if st.complete then .ok .number [] else .fail errUnexpectedEOF
  | st, c :: rest =>
    match st.step c with
    | some st1 => scanNum st1 rest
    | none => if st.complete then .ok .number (c :: rest) else .fail errInvalidCharacter

/-- Scans the rest of one of the literals `true`, `false`, `null`. -/
def scanLit (v : JValue) : GoString → GoString → Scan JValue
  | [], s => .ok v s
  | _ :: _, [] => .fail errUnexpectedEOF
  | e :: es, c :: rest => if c = e then scanLit v es rest else .fail errInvalidCharacter

mutual

/-- Scans one JSON value at the start of the input, after white space.
`depth` is the number of enclosing arrays and objects, `fuel` bounds the
recursion; `2 * s.length + 1` is enough for an input `s` (`scanValue_fuel`),
so the case of no fuel left is never the one that decides. -/
def scanValue : Nat → Nat → GoString → Scan JValue
  | 0, _, _ => .fail errMaxDepth
  | fuel + 1, depth, s =>
    match skipWS s with
    | [] => .fail errUnexpectedEOF
    | c :: rest =>
      if c = 0x7B then
        if 10000 ≤ depth then .fail errMaxDepth
        else
          match skipWS rest with
          | [] => .fail errUnexpectedEOF
          | c1 :: rest1 =>
            if c1 = 0x7D then .ok (.object []) rest1
            else scanMembers fuel (depth + 1) [] (c1 :: rest1)
      else if c = 0x5B then
        if 10000 ≤ depth then .fail errMaxDepth
        else
          match skipWS rest with
          | [] => .fail errUnexpectedEOF
          | c1 :: rest1 =>
            if c1 = 0x5D then .ok (.array []) rest1
            else scanElements fuel (depth + 1) [] (c1 :: rest1)
      else if c = 0x22 then
        match scanStr .plain [] rest with
        | .ok raw rest1 => .ok (.string (unquote raw)) rest1
        | .fail msg => .fail msg
      else if c = 0x2D then scanNum .neg rest
      else if c = 0x30 then scanNum .zero rest
      else if isDigit c then scanNum .int rest
      else if c = 0x74 then scanLit (.bool true) [0x72, 0x75, 0x65] rest
      else if c = 0x66 then scanLit (.bool false) [0x61, 0x6C, 0x73, 0x65] rest
      else if c = 0x6E then scanLit .null [0x75, 0x6C, 0x6C] rest
      else .fail errInvalidCharacter

/-- Scans the members of an object from the start of a key to the closing
brace; `acc` holds the members read so far. -/
def scanMembers : Nat → Nat → List (GoString × JValue) → GoString → Scan JValue
  | 0, _, _, _ => .fail errMaxDepth
  | fuel + 1, depth, acc, s =>
    match skipWS s with
    | [] => .fail errUnexpectedEOF
    | c :: rest =>
      if c = 0x22 then
        match scanStr .plain [] rest with
        | .fail msg => .fail msg
        | .ok raw rest1 =>
          match skipWS rest1 with
          | [] => .fail errUnexpectedEOF
          | c2 :: rest2 =>
            if c2 = 0x3A then
              match scanValue fuel depth rest2 with
              | .fail msg => .fail msg
              | .ok v rest3 =>
                match skipWS rest3 with
                | [] => .fail errUnexpectedEOF
                | c4 :: rest4 =>
                  if c4 = 0x2C then scanMembers fuel depth (acc ++ [(unquote raw, v)]) rest4
                  else if c4 = 0x7D then .ok (.object (acc ++ [(unquote raw, v)])) rest4
                  else .fail errInvalidCharacter
            else .fail errInvalidCharacter
      else .fail errInvalidCharacter

/-- Scans the elements of an array from the start of an element to the
closing bracket; `acc` holds the elements read so far. -/
def scanElements : Nat → Nat → List JValue → GoString → Scan JValue
  | 0, _, _, _ => .fail errMaxDepth
  | fuel + 1, depth, acc, s =>
    match scanValue fuel depth s with
    | .fail msg => .fail msg
    | .ok v rest1 =>
      match skipWS rest1 with
      | [] => .fail errUnexpectedEOF
      | c2 :: rest2 =>
        if c2 = 0x2C then scanElements fuel depth (acc ++ [v]) rest2
        else if c2 = 0x5D then .ok (.array (acc ++ [v])) rest2
        else .fail errInvalidCharacter

end

/-- Lower case of an ASCII letter; other bytes are left as they are. -/
def toLowerASCII (c : Nat) : Nat := if 0x41 ≤ c ∧ c ≤ 0x5A then c + 0x20 else c

/-- Whether an object key selects the field `Word`, tagged `word`: the decoder
matches the name exactly or, failing that, regardless of case (no letter of
`word` has a non-ASCII case variant). -/
def isWordKey (key : GoString) : Bool := key.map toLowerASCII = lit "word"

/-- Storing one member of an object into an `Input`: a string sets `Word`,
`null` leaves it, any other value is a type error (noted in the flag) and is
skipped; members with another key are skipped. -/
def storeMember (st : Input × Bool) (member : GoString × JValue) : Input × Bool :=
  if isWordKey member.1 then
    match member.2 with
    | .string s => (⟨s⟩, st.2)
    | .null => st
    | _ => (st.1, true)
  else st

/-- Unmarshalling a scanned value into a zero `Input`: the resulting struct
and whether a type error was met. Only an object or `null` fits a struct. -/
def unmarshalInput (v : JValue) : Input × Bool :=
  match v with
  | .object members => members.foldl storeMember (⟨[]⟩, false)
  | .null => (⟨[]⟩, false)
  | _ => (⟨[]⟩, true)

/-- The call `decoder.Decode(&word)` on a fresh decoder over the body, `word`
being the zero `Input`: a body of white space only gives `io.EOF`; otherwise
the first JSON value of the body is scanned (what follows it is not read) and
unmarshalled. The texts of syntax and type errors are kept up to their fixed
beginning; the handler only compares the text with `EOF`. -/
def jsonDecode (body : GoString) : Decoded :=
  match skipWS body with
  | [] => ⟨⟨[]⟩, some (lit "EOF")⟩
  | _ :: _ =>
    match scanValue (2 * body.length + 1) 0 body with
    | .fail msg => ⟨⟨[]⟩, some msg⟩
    | .ok v _ =>
      let r := unmarshalInput v
      ⟨r.1, if r.2 then some errCannotUnmarshal else none⟩

/-- Whether the whole body is one JSON value, white space around it allowed
(`json.Valid`). -/
def isJSON (body : GoString) : Bool :=
  match scanValue (2 * body.length + 1) 0 body with
  | .ok _ rest => (skipWS rest).isEmpty
  | .fail _ => false

/-! ## The reversal loop and the UTF-8 conversions -/



theorem swap_append (pre mid post : List Rune) (a b : Rune) (i j : Int)
    (hi : i = pre.length) (hj : j = pre.length + mid.length + 1) :
    swap (pre ++ a :: (mid ++ b :: post)) i j = pre ++ b :: (mid ++ a :: post) := by
  subst hi hj
  have e1 : ((pre.length : Int)).toNat = pre.length := by simp
  have e2 : ((pre.length : Int) + mid.length + 1).toNat = pre.length + (mid.length + 1) := by omega
  have g1 : (pre ++ a :: (mid ++ b :: post)).getD pre.length 0 = a := by
    rw [List.getD_append_right _ _ _ _ (Nat.le_refl _), Nat.sub_self]
    rfl
  have g2 : (pre ++ a :: (mid ++ b :: post)).getD (pre.length + (mid.length + 1)) 0 = b := by
    rw [List.getD_append_right _ _ _ _ (Nat.le_add_right _ _), Nat.add_sub_cancel_left,
      List.getD_cons_succ, List.getD_append_right _ _ _ _ (Nat.le_refl _), Nat.sub_self]
    rfl
  unfold swap
  rw [e1, e2, g1, g2]
  simp [List.set_append_right]

theorem reverseLoop_append (fuel : Nat) :
    ∀ (pre mid post : List Rune) (i j : Int), mid.length ≤ 2 * fuel + 1 →
      i = pre.length → j = (pre.length : Int) + mid.length - 1 →
      reverseLoop fuel (pre ++ mid ++ post) i j = pre ++ mid.reverse ++ post := by
  induction fuel with
  | zero =>
    intro pre mid post i j hlen _ _
    match mid, hlen with
    | [], _ => rfl
    | [a], _ => rfl
  | succ fuel ih =>
    intro pre mid post i j hlen hi hj
    match mid, hlen, hj with
    | [], _, hj =>
      have : ¬ i < j := by simp at hj; omega
      simp [reverseLoop, this]
    | [a], _, hj =>
      have : ¬ i < j := by simp at hj; omega
      simp [reverseLoop, this]
    | a :: c :: tl, hlen, hj =>
      obtain ⟨mid', b, hmid⟩ : ∃ mid' b, c :: tl = mid' ++ [b] :=
        ⟨(c :: tl).dropLast, (c :: tl).getLast (by simp), (List.dropLast_append_getLast _).symm⟩
      have hl : (c :: tl).length = mid'.length + 1 := by rw [hmid]; simp
      simp only [List.length_cons] at hlen hj hl
      have hij : i < j := by omega
      rw [hmid]
      simp only [reverseLoop, hij, if_true]
      have hs : pre ++ a :: (mid' ++ [b]) ++ post = pre ++ a :: (mid' ++ b :: post) := by simp
      rw [hs, swap_append pre mid' post a b i j hi (by omega)]
      have hs2 : pre ++ b :: (mid' ++ a :: post) = (pre ++ [b]) ++ mid' ++ (a :: post) := by simp
      rw [hs2, ih (pre ++ [b]) mid' (a :: post) (i + 1) (j - 1) (by omega)
        (by simp; omega) (by simp; omega)]
      simp

theorem reverseLoop_eq_reverse (runes : List Rune) :
    reverseLoop runes.length runes 0 ((runes.length : Int) - 1) = runes.reverse := by
  have h := reverseLoop_append runes.length [] runes [] 0 ((runes.length : Int) - 1)
    (by omega) (by simp) (by simp)
  simpa using h


theorem isScalar_iff (r : Nat) : isScalar r ↔ r < 0xD800 ∨ (0xDFFF < r ∧ r ≤ 0x10FFFF) := Iff.rfl

theorem encodeRune_length_pos (r : Nat) : 0 < (encodeRune r).length := by
  unfold encodeRune
  split_ifs <;> simp

theorem encodeRune_lt_256 (r : Nat) : ∀ b ∈ encodeRune r, b < 256 := by
  intro b hb
  unfold encodeRune at hb
  simp only [maxRune, surrogateMin, surrogateMax] at hb
  split_ifs at hb <;> simp only [List.mem_cons, List.mem_singleton, List.not_mem_nil, or_false] at hb <;>
    omega

theorem decodeRune_width_pos (s : List Nat) : 0 < (decodeRune s).2 := by
  unfold decodeRune
  split
  · simp
  · split_ifs <;> (try split) <;> (try dsimp only) <;> (try split_ifs) <;> simp

theorem decodeRune_encodeRune (r : Nat) (rest : List Nat) (h : isScalar r) :
    decodeRune (encodeRune r ++ rest) = (r, (encodeRune r).length) := by
  rw [isScalar_iff] at h
  unfold encodeRune
  by_cases h1 : r ≤ 0x7F
  · have : r < 0x80 := by omega
    simp [h1, decodeRune, this]
  · by_cases h2 : r ≤ 0x7FF
    · simp only [h1, h2, if_false, if_true]
      have a1 : ¬ (0xC0 + r / 64 < 0x80) := by omega
      have a2 : 0xC0 ≤ 0xC0 + r / 64 ∧ 0xC0 + r / 64 < 0xE0 := by omega
      have a3 : isCont (0x80 + r % 64) = true := by simp [isCont]; omega
      have a4 : (0xC0 + r / 64) % 32 * 64 + (0x80 + r % 64) % 64 = r := by omega
      simp only [decodeRune, List.cons_append, a1, a2, a3, a4, if_false]
      simp; omega
    · have h3 : ¬ (r > maxRune ∨ (surrogateMin ≤ r ∧ r ≤ surrogateMax)) := by
        simp only [maxRune, surrogateMin, surrogateMax]; omega
      by_cases h4 : r ≤ 0xFFFF
      · simp only [h1, h2, h3, h4, if_false, if_true]
        have a1 : ¬ (0xE0 + r / 4096 < 0x80) := by omega
        have a2 : ¬ (0xC0 ≤ 0xE0 + r / 4096 ∧ 0xE0 + r / 4096 < 0xE0) := by omega
        have a2b : 0xE0 ≤ 0xE0 + r / 4096 ∧ 0xE0 + r / 4096 < 0xF0 := by omega
        have a3 : isCont (0x80 + r / 64 % 64) = true := by simp [isCont]; omega
        have a3b : isCont (0x80 + r % 64) = true := by simp [isCont]; omega
        have a4 : (0xE0 + r / 4096) % 16 * 4096 + (0x80 + r / 64 % 64) % 64 * 64
            + (0x80 + r % 64) % 64 = r := by omega
        simp only [decodeRune, List.cons_append, a1, a2, a2b, a3, a3b, a4, if_false]
        simp [surrogateMin, surrogateMax]; omega
      · simp only [h1, h2, h3, h4, if_false, if_true]
        have a1 : ¬ (0xF0 + r / 262144 < 0x80) := by omega
        have a2 : ¬ (0xC0 ≤ 0xF0 + r / 262144 ∧ 0xF0 + r / 262144 < 0xE0) := by omega
        have a2b : ¬ (0xE0 ≤ 0xF0 + r / 262144 ∧ 0xF0 + r / 262144 < 0xF0) := by omega
        have a2c : 0xF0 ≤ 0xF0 + r / 262144 ∧ 0xF0 + r / 262144 < 0xF8 := by omega
        have a3 : isCont (0x80 + r / 4096 % 64) = true := by simp [isCont]; omega
        have a3b : isCont (0x80 + r / 64 % 64) = true := by simp [isCont]; omega
        have a3c : isCont (0x80 + r % 64) = true := by simp [isCont]; omega
        have a4 : (0xF0 + r / 262144) % 8 * 262144 + (0x80 + r / 4096 % 64) % 64 * 4096
            + (0x80 + r / 64 % 64) % 64 * 64 + (0x80 + r % 64) % 64 = r := by omega
        simp only [decodeRune, List.cons_append, a1, a2, a2b, a2c, a3, a3b, a3c, a4, if_false]
        simp [maxRune]; omega

theorem isScalar_decodeRune (s : List Nat) : isScalar (decodeRune s).1 := by
  rw [isScalar_iff]
  unfold decodeRune
  split
  · simp [runeError]
  · rename_i b0 rest
    split_ifs with h1 h2 h3 h4
    · simp; omega
    · split
      · rename_i b1 tl
        dsimp only
        split_ifs with h5
        · simp only
          have := Nat.mod_lt b0 (by decide : 0 < 32)
          have := Nat.mod_lt b1 (by decide : 0 < 64)
          omega
        · simp [runeError]
      · simp [runeError]
    · split
      · dsimp only
        split_ifs with h5
        · simp only [surrogateMin, surrogateMax] at h5 ⊢
          rename_i b1 b2 tl
          have := Nat.mod_lt b0 (by decide : 0 < 16)
          have := Nat.mod_lt b1 (by decide : 0 < 64)
          have := Nat.mod_lt b2 (by decide : 0 < 64)
          omega
        · simp [runeError]
      · simp [runeError]
    · split
      · dsimp only
        split_ifs with h5
        · simp only [maxRune] at h5 ⊢
          omega
        · simp [runeError]
      · simp [runeError]
    · simp [runeError]

theorem decodeRunesAux_fuel (n : Nat) :
    ∀ (s : List Nat) (f g : Nat), s.length ≤ n → s.length ≤ f → s.length ≤ g →
      decodeRunesAux f s = decodeRunesAux g s := by
  induction n with
  | zero =>
    intro s f g hn _ _
    have : s = [] := List.length_eq_zero.mp (by omega)
    subst this
    cases f <;> cases g <;> rfl
  | succ n ih =>
    intro s f g hn hf hg
    match s, f, g, hn, hf, hg with
    | [], f, g, _, _, _ => cases f <;> cases g <;> rfl
    | b :: rest, f + 1, g + 1, hn, hf, hg =>
      simp only [decodeRunesAux]
      have hw := decodeRune_width_pos (b :: rest)
      have hd : ((b :: rest).drop (decodeRune (b :: rest)).2).length ≤ rest.length := by
        simp only [List.length_drop, List.length_cons]; omega
      simp only [List.length_cons] at hn hf hg
      rw [ih _ f g (by omega) (by omega) (by omega)]

theorem decodeRunes_nil : decodeRunes [] = [] := rfl

theorem decodeRunes_cons (b : Nat) (rest : List Nat) :
    decodeRunes (b :: rest) =
      (decodeRune (b :: rest)).1 :: decodeRunes ((b :: rest).drop (decodeRune (b :: rest)).2) := by
  unfold decodeRunes
  simp only [List.length_cons, decodeRunesAux]
  have hw := decodeRune_width_pos (b :: rest)
  congr 1
  apply decodeRunesAux_fuel rest.length
  · simp only [List.length_drop, List.length_cons]; omega
  · simp only [List.length_drop, List.length_cons]; omega
  · exact Nat.le_refl _

theorem decodeRunes_encodeRune_append (r : Nat) (rest : List Nat) (h : isScalar r) :
    decodeRunes (encodeRune r ++ rest) = r :: decodeRunes rest := by
  have hpos := encodeRune_length_pos r
  match he : encodeRune r, hpos with
  | b :: tl, _ =>
    rw [List.cons_append, decodeRunes_cons, ← List.cons_append, ← he,
      decodeRune_encodeRune r rest h]
    simp

theorem decodeRunes_encodeRunes (runes : List Nat) (h : ∀ r ∈ runes, isScalar r) :
    decodeRunes (encodeRunes runes) = runes := by
  induction runes with
  | nil => rfl
  | cons r rs ih =>
    have h1 : encodeRunes (r :: rs) = encodeRune r ++ encodeRunes rs := by
      simp [encodeRunes]
    rw [h1, decodeRunes_encodeRune_append r _ (h r (by simp)),
      ih (fun x hx => h x (List.mem_cons_of_mem _ hx))]

theorem isScalar_of_mem_decodeRunes (s : List Nat) : ∀ r ∈ decodeRunes s, isScalar r := by
  generalize hn : s.length = n
  induction n using Nat.strong_induction_on generalizing s with
  | _ n ih =>
    match s, hn with
    | [], _ => simp [decodeRunes_nil]
    | b :: rest, hn =>
      intro r hr
      rw [decodeRunes_cons] at hr
      rcases List.mem_cons.mp hr with h | h
      · rw [h]; exact isScalar_decodeRune _
      · have hw := decodeRune_width_pos (b :: rest)
        refine ih _ ?_ _ rfl r h
        simp only [List.length_drop, List.length_cons] at hn ⊢
        omega

theorem reverse_eq (s : List Nat) : reverse s = encodeRunes (decodeRunes s).reverse := by
  unfold reverse
  simp only [reverseLoop_eq_reverse]

theorem decodeRunes_reverse (s : List Nat) :
    decodeRunes (reverse s) = (decodeRunes s).reverse := by
  rw [reverse_eq]
  apply decodeRunes_encodeRunes
  intro r hr
  exact isScalar_of_mem_decodeRunes s r (List.mem_reverse.mp hr)

theorem reverse_encodeRunes (runes : List Nat) (h : ∀ r ∈ runes, isScalar r) :
    reverse (encodeRunes runes) = encodeRunes runes.reverse := by
  rw [reverse_eq, decodeRunes_encodeRunes runes h]

theorem isScalar_toNat (c : Char) : isScalar c.toNat := by
  rw [isScalar_iff]
  have h := c.valid
  simp only [UInt32.isValidChar, Nat.isValidChar] at h
  simp only [Char.toNat]
  omega


/-! ## Consequences for `reverse` and for the JSON output -/

theorem lit_eq (s : String) : lit s = encodeRunes (s.data.map Char.toNat) := rfl

theorem isScalar_of_mem_map_toNat (cs : List Char) : ∀ r ∈ cs.map Char.toNat, isScalar r := by
  intro r hr
  obtain ⟨c, _, rfl⟩ := List.mem_map.mp hr
  exact isScalar_toNat c

theorem reverse_lit (s : String) : reverse (lit s) = lit (String.mk s.data.reverse) := by
  rw [lit_eq, lit_eq, reverse_encodeRunes _ (isScalar_of_mem_map_toNat _), List.map_reverse]

theorem toValidUTF8_encodeRunes (runes : List Nat) (h : ∀ r ∈ runes, isScalar r) :
    toValidUTF8 (encodeRunes runes) = encodeRunes runes := by
  unfold toValidUTF8
  rw [decodeRunes_encodeRunes runes h]

theorem toValidUTF8_reverse (s : List Nat) : toValidUTF8 (reverse s) = reverse s := by
  rw [reverse_eq]
  apply toValidUTF8_encodeRunes
  intro r hr
  exact isScalar_of_mem_decodeRunes s r (List.mem_reverse.mp hr)

theorem toValidUTF8_lit (s : String) : toValidUTF8 (lit s) = lit s :=
  toValidUTF8_encodeRunes _ (isScalar_of_mem_map_toNat _)

theorem encodeRunes_ne_nil (runes : List Nat) (h : runes ≠ []) : encodeRunes runes ≠ [] := by
  match runes, h with
  | r :: rs, _ =>
    have hpos := encodeRune_length_pos r
    intro hnil
    have hlen := congrArg List.length hnil
    simp only [encodeRunes, List.flatMap_cons, List.length_append, List.length_nil] at hlen
    omega

theorem decodeRunes_ne_nil (s : List Nat) (h : s ≠ []) : decodeRunes s ≠ [] := by
  match s, h with
  | b :: rest, _ => rw [decodeRunes_cons]; exact List.cons_ne_nil _ _

theorem reverse_ne_nil (s : List Nat) (h : s ≠ []) : reverse s ≠ [] := by
  rw [reverse_eq]
  apply encodeRunes_ne_nil
  intro hnil
  exact decodeRunes_ne_nil s h (List.reverse_eq_nil_iff.mp hnil)

theorem reverseWordOf_ne_nil (word : Input) : reverseWordOf word ≠ [] := by
  unfold reverseWordOf
  split_ifs with h
  · decide
  · apply reverse_ne_nil
    intro hnil
    rw [hnil] at h
    exact h (by decide)

theorem jsonMarshal_reverseWordOf (word : Input) :
    jsonMarshal ⟨reverseWordOf word⟩ =
      .ok ⟨[(lit "reverse_word", reverseWordOf word)]⟩ := by
  have hne := reverseWordOf_ne_nil word
  have hlen : ¬ (reverseWordOf word).length = 0 := fun h => hne (List.length_eq_zero.mp h)
  have hv : toValidUTF8 (reverseWordOf word) = reverseWordOf word := by
    unfold reverseWordOf
    split_ifs
    · exact toValidUTF8_lit _
    · exact toValidUTF8_reverse _
  simp only [jsonMarshal, hlen, if_false, hv]

theorem ReverseWord_jsonMarshal (m : Metrics) (d : Decoded) (h : decodePanic d.err = none) :
    ReverseWord jsonMarshal m d =
      .done ⟨200, some (lit "application/json"), .json ⟨[(lit "reverse_word", reverseWordOf d.word)]⟩⟩
        (m.incTotalWordsReversed.incEndpoint (lit "reverseword")) := by
  simp only [ReverseWord, h, jsonMarshal_reverseWordOf]



/-! ## The JSON decoder -/

theorem unquoteAux_fuel (n : Nat) :
    ∀ (s : List Nat) (f g : Nat), s.length ≤ n → s.length ≤ f → s.length ≤ g →
      unquoteAux f s = unquoteAux g s := by
  induction n with
  | zero =>
    intro s f g hn _ _
    have : s = [] := List.length_eq_zero.mp (by omega)
    subst this
    cases f <;> cases g <;> rfl
  | succ n ih =>
    intro s f g hn hf hg
    match s, f, g, hn, hf, hg with
    | [], f, g, _, _, _ => cases f <;> cases g <;> rfl
    | c :: rest, f + 1, g + 1, hn, hf, hg =>
      simp only [List.length_cons] at hn hf hg
      simp only [unquoteAux]
      split_ifs
      · cases rest with
        | nil => rfl
        | cons e rest1 =>
          simp only [List.length_cons] at hn hf hg
          have hd4 : (rest1.drop 4).length ≤ rest1.length := by
            simp only [List.length_drop]; omega
          have hd6 : ((rest1.drop 4).drop 6).length ≤ rest1.length := by
            simp only [List.length_drop]; omega
          simp only
          split_ifs
          · split
            · split_ifs
              · rw [ih _ f g (by omega) (by omega) (by omega)]
              · rw [ih _ f g (by omega) (by omega) (by omega)]
            · rw [ih _ f g (by omega) (by omega) (by omega)]
          · rw [ih _ f g (by omega) (by omega) (by omega)]
          · rw [ih rest1 f g (by omega) (by omega) (by omega)]
      · rw [ih rest f g (by omega) (by omega) (by omega)]
      · have hw := decodeRune_width_pos (c :: rest)
        have hd : ((c :: rest).drop (decodeRune (c :: rest)).2).length ≤ rest.length := by
          simp only [List.length_drop, List.length_cons]; omega
        rw [ih _ f g (by omega) (by omega) (by omega)]

theorem skipWS_length_le (s : List Nat) : (skipWS s).length ≤ s.length := by
  induction s with
  | nil => simp [skipWS]
  | cons c rest ih =>
    simp only [skipWS]
    split_ifs
    · simp only [List.length_cons]; omega
    · exact Nat.le_refl _

theorem skipWS_cons_length (s rest : List Nat) (c : Nat) (h : skipWS s = c :: rest) :
    rest.length + 1 ≤ s.length := by
  have := skipWS_length_le s
  rw [h] at this
  simpa using this

theorem scanStr_rest_lt (s : List Nat) :
    ∀ (st : StrState) (acc raw rest : List Nat), scanStr st acc s = .ok raw rest →
      rest.length < s.length := by
  induction s with
  | nil => intro st acc raw rest h; cases st <;> simp [scanStr] at h
  | cons c tl ih =>
    intro st acc raw rest h
    cases st with
    | plain =>
      simp only [scanStr] at h
      split_ifs at h
      · cases h; simp
      · have := ih _ _ _ _ h; simp only [List.length_cons]; omega
      · have := ih _ _ _ _ h; simp only [List.length_cons]; omega
    | esc =>
      simp only [scanStr] at h
      split_ifs at h
      · have := ih _ _ _ _ h; simp only [List.length_cons]; omega
      · have := ih _ _ _ _ h; simp only [List.length_cons]; omega
    | hex k =>
      simp only [scanStr] at h
      split_ifs at h
      have := ih _ _ _ _ h; simp only [List.length_cons]; omega

theorem scanNum_rest_le (s : List Nat) :
    ∀ (st : NumState) (v : JValue) (rest : List Nat), scanNum st s = .ok v rest →
      rest.length ≤ s.length := by
  induction s with
  | nil =>
    intro st v rest h
    simp only [scanNum] at h
    split_ifs at h
    cases h; simp
  | cons c tl ih =>
    intro st v rest h
    simp only [scanNum] at h
    split at h
    · have := ih _ _ _ h; simp only [List.length_cons]; omega
    · split_ifs at h
      cases h; simp

theorem scanLit_rest_le (v : JValue) (es : List Nat) :
    ∀ (s : List Nat) (w : JValue) (rest : List Nat), scanLit v es s = .ok w rest →
      rest.length ≤ s.length := by
  induction es with
  | nil => intro s w rest h; simp only [scanLit] at h; cases h; simp
  | cons e es ih =>
    intro s w rest h
    cases s with
    | nil => simp [scanLit] at h
    | cons c tl =>
      simp only [scanLit] at h
      split_ifs at h
      have := ih _ _ _ h; simp only [List.length_cons]; omega


theorem scan_rest_lt (fuel : Nat) :
    (∀ (d : Nat) (s : List Nat) (v : JValue) (rest : List Nat),
      scanValue fuel d s = .ok v rest → rest.length < s.length) ∧
    (∀ (d : Nat) (acc : List (GoString × JValue)) (s : List Nat) (v : JValue) (rest : List Nat),
      scanMembers fuel d acc s = .ok v rest → rest.length < s.length) ∧
    (∀ (d : Nat) (acc : List JValue) (s : List Nat) (v : JValue) (rest : List Nat),
      scanElements fuel d acc s = .ok v rest → rest.length < s.length) := by
  induction fuel with
  | zero =>
    refine ⟨?_, ?_, ?_⟩ <;> intros <;> simp_all [scanValue, scanMembers, scanElements]
  | succ fuel ih =>
    obtain ⟨ihV, ihM, ihE⟩ := ih
    refine ⟨?_, ?_, ?_⟩
    · intro d s v rest h
      simp only [scanValue] at h
      split at h
      · cases h
      · rename_i c r0 hs
        have h0 := skipWS_cons_length _ _ _ hs
        split_ifs at h
        · split at h
          · cases h
          · rename_i c1 r1 hs1
            have h1 := skipWS_cons_length _ _ _ hs1
            split_ifs at h
            · cases h; omega
            · have := ihM _ _ _ _ _ h
              simp only [List.length_cons] at this; omega
        · split at h
          · cases h
          · rename_i c1 r1 hs1
            have h1 := skipWS_cons_length _ _ _ hs1
            split_ifs at h
            · cases h; omega
            · have := ihE _ _ _ _ _ h
              simp only [List.length_cons] at this; omega
        · split at h
          · rename_i raw r1 hq
            have := scanStr_rest_lt _ _ _ _ _ hq
            cases h; omega
          · cases h
        · have := scanNum_rest_le _ _ _ _ h; omega
        · have := scanNum_rest_le _ _ _ _ h; omega
        · have := scanNum_rest_le _ _ _ _ h; omega
        · have := scanLit_rest_le _ _ _ _ _ h; omega
        · have := scanLit_rest_le _ _ _ _ _ h; omega
        · have := scanLit_rest_le _ _ _ _ _ h; omega
    · intro d acc s v rest h
      simp only [scanMembers] at h
      split at h
      · cases h
      · rename_i c r0 hs
        have h0 := skipWS_cons_length _ _ _ hs
        split_ifs at h
        split at h
        · cases h
        · rename_i raw r1 hq
          have hq1 := scanStr_rest_lt _ _ _ _ _ hq
          split at h
          · cases h
          · rename_i c2 r2 hs2
            have h2 := skipWS_cons_length _ _ _ hs2
            split_ifs at h
            split at h
            · cases h
            · rename_i v3 r3 hv
              have h3 := ihV _ _ _ _ hv
              split at h
              · cases h
              · rename_i c4 r4 hs4
                have h4 := skipWS_cons_length _ _ _ hs4
                split_ifs at h
                · have := ihM _ _ _ _ _ h; omega
                · cases h; omega
    · intro d acc s v rest h
      simp only [scanElements] at h
      split at h
      · cases h
      · rename_i v1 r1 hv
        have h1 := ihV _ _ _ _ hv
        split at h
        · cases h
        · rename_i c2 r2 hs2
          have h2 := skipWS_cons_length _ _ _ hs2
          split_ifs at h
          · have := ihE _ _ _ _ _ h; omega
          · cases h; omega


theorem scan_fuel (n : Nat) :
    (∀ (d : Nat) (s : List Nat) (f g : Nat), s.length ≤ n →
      2 * s.length + 1 ≤ f → 2 * s.length + 1 ≤ g → scanValue f d s = scanValue g d s) ∧
    (∀ (d : Nat) (acc : List (GoString × JValue)) (s : List Nat) (f g : Nat), s.length ≤ n →
      2 * s.length + 1 ≤ f → 2 * s.length + 1 ≤ g →
      scanMembers f d acc s = scanMembers g d acc s) ∧
    (∀ (d : Nat) (acc : List JValue) (s : List Nat) (f g : Nat), s.length ≤ n →
      2 * s.length + 2 ≤ f → 2 * s.length + 2 ≤ g →
      scanElements f d acc s = scanElements g d acc s) := by
  induction n using Nat.strong_induction_on with
  | _ n ih =>
    have hV : ∀ (d : Nat) (s : List Nat) (f g : Nat), s.length ≤ n →
        2 * s.length + 1 ≤ f → 2 * s.length + 1 ≤ g → scanValue f d s = scanValue g d s := by
      intro d s f g hn hf hg
      obtain ⟨f, rfl⟩ : ∃ k, f = k + 1 := ⟨f - 1, by omega⟩
      obtain ⟨g, rfl⟩ : ∃ k, g = k + 1 := ⟨g - 1, by omega⟩
      simp only [scanValue]
      rcases hs : skipWS s with _ | ⟨c, r0⟩
      · rfl
      · have h0 := skipWS_cons_length _ _ _ hs
        simp only
        rcases hs1 : skipWS r0 with _ | ⟨c1, r1⟩
        · rfl
        · have h1 := skipWS_cons_length _ _ _ hs1
          simp only
          have hl : (c1 :: r1).length < n := by simp only [List.length_cons]; omega
          have hl2 : (c1 :: r1).length + 1 ≤ s.length := by simp only [List.length_cons]; omega
          rw [(ih _ hl).2.1 (d + 1) [] (c1 :: r1) f g (Nat.le_refl _) (by omega) (by omega),
            (ih _ hl).2.2 (d + 1) [] (c1 :: r1) f g (Nat.le_refl _) (by omega) (by omega)]
    refine ⟨hV, ?_, ?_⟩
    · intro d acc s f g hn hf hg
      obtain ⟨f, rfl⟩ : ∃ k, f = k + 1 := ⟨f - 1, by omega⟩
      obtain ⟨g, rfl⟩ : ∃ k, g = k + 1 := ⟨g - 1, by omega⟩
      simp only [scanMembers]
      rcases hs : skipWS s with _ | ⟨c, r0⟩
      · rfl
      · have h0 := skipWS_cons_length _ _ _ hs
        simp only
        split_ifs
        · rcases hq : scanStr .plain [] r0 with ⟨raw, r1⟩ | msg
          · have hq1 := scanStr_rest_lt _ _ _ _ _ hq
            simp only
            rcases hs2 : skipWS r1 with _ | ⟨c2, r2⟩
            · rfl
            · have h2 := skipWS_cons_length _ _ _ hs2
              simp only
              split_ifs
              · rw [hV d r2 f g (by omega) (by omega) (by omega)]
                rcases hv : scanValue g d r2 with ⟨v3, r3⟩ | msg
                · have h3 := (scan_rest_lt g).1 _ _ _ _ hv
                  simp only
                  rcases hs4 : skipWS r3 with _ | ⟨c4, r4⟩
                  · rfl
                  · have h4 := skipWS_cons_length _ _ _ hs4
                    simp only
                    have hl : r4.length < n := by omega
                    rw [(ih _ hl).2.1 d _ r4 f g (Nat.le_refl _) (by omega) (by omega)]
                · rfl
              · rfl
          · rfl
        · rfl
    · intro d acc s f g hn hf hg
      obtain ⟨f, rfl⟩ : ∃ k, f = k + 1 := ⟨f - 1, by omega⟩
      obtain ⟨g, rfl⟩ : ∃ k, g = k + 1 := ⟨g - 1, by omega⟩
      simp only [scanElements]
      rw [hV d s f g hn (by omega) (by omega)]
      rcases hv : scanValue g d s with ⟨v1, r1⟩ | msg
      · have h1 := (scan_rest_lt g).1 _ _ _ _ hv
        simp only
        rcases hs2 : skipWS r1 with _ | ⟨c2, r2⟩
        · rfl
        · have h2 := skipWS_cons_length _ _ _ hs2
          simp only
          have hl : r2.length < n := by omega
          rw [(ih _ hl).2.2 d _ r2 f g (Nat.le_refl _) (by omega) (by omega)]
      · rfl

/-- More fuel than `2 * s.length + 1` does not change what `scanValue` reads. -/
theorem scanValue_fuel (d : Nat) (s : List Nat) (f : Nat) (hf : 2 * s.length + 1 ≤ f) :
    scanValue f d s = scanValue (2 * s.length + 1) d s :=
  (scan_fuel s.length).1 d s f _ (Nat.le_refl _) hf (Nat.le_refl _)


theorem scanStr_fail (s : List Nat) :
    ∀ (st : StrState) (acc msg : List Nat), scanStr st acc s = .fail msg →
      msg = errUnexpectedEOF ∨ msg = errInvalidCharacter ∨ msg = errMaxDepth := by
  induction s with
  | nil => intro st acc msg h; cases st <;> simp only [scanStr] at h <;> cases h <;> simp
  | cons c tl ih =>
    intro st acc msg h
    cases st with
    | plain =>
      simp only [scanStr] at h
      split_ifs at h
      · exact ih _ _ _ h
      · cases h; simp
      · exact ih _ _ _ h
    | esc =>
      simp only [scanStr] at h
      split_ifs at h
      · exact ih _ _ _ h
      · exact ih _ _ _ h
      · cases h; simp
    | hex k =>
      simp only [scanStr] at h
      split_ifs at h
      · exact ih _ _ _ h
      · cases h; simp

theorem scanNum_fail (s : List Nat) :
    ∀ (st : NumState) (msg : List Nat), scanNum st s = .fail msg →
      msg = errUnexpectedEOF ∨ msg = errInvalidCharacter ∨ msg = errMaxDepth := by
  induction s with
  | nil =>
    intro st msg h
    simp only [scanNum] at h
    split_ifs at h
    cases h; simp
  | cons c tl ih =>
    intro st msg h
    simp only [scanNum] at h
    split at h
    · exact ih _ _ h
    · split_ifs at h
      cases h; simp

theorem scanLit_fail (v : JValue) (es : List Nat) :
    ∀ (s msg : List Nat), scanLit v es s = .fail msg →
      msg = errUnexpectedEOF ∨ msg = errInvalidCharacter ∨ msg = errMaxDepth := by
  induction es with
  | nil => intro s msg h; simp only [scanLit] at h; cases h
  | cons e es ih =>
    intro s msg h
    cases s with
    | nil => simp only [scanLit] at h; cases h; simp
    | cons c tl =>
      simp only [scanLit] at h
      split_ifs at h
      · exact ih _ _ h
      · cases h; simp

theorem scan_fail (fuel : Nat) :
    (∀ (d : Nat) (s msg : List Nat), scanValue fuel d s = .fail msg →
      msg = errUnexpectedEOF ∨ msg = errInvalidCharacter ∨ msg = errMaxDepth) ∧
    (∀ (d : Nat) (acc : List (GoString × JValue)) (s msg : List Nat),
      scanMembers fuel d acc s = .fail msg →
      msg = errUnexpectedEOF ∨ msg = errInvalidCharacter ∨ msg = errMaxDepth) ∧
    (∀ (d : Nat) (acc : List JValue) (s msg : List Nat),
      scanElements fuel d acc s = .fail msg →
      msg = errUnexpectedEOF ∨ msg = errInvalidCharacter ∨ msg = errMaxDepth) := by
  induction fuel with
  | zero =>
    refine ⟨?_, ?_, ?_⟩ <;> intros <;> simp_all [scanValue, scanMembers, scanElements]
  | succ fuel ih =>
    obtain ⟨ihV, ihM, ihE⟩ := ih
    refine ⟨?_, ?_, ?_⟩
    · intro d s msg h
      simp only [scanValue] at h
      split at h
      · cases h; simp
      · split_ifs at h
        · cases h; simp
        · split at h
          · cases h; simp
          · split_ifs at h
            exact ihM _ _ _ _ h
        · cases h; simp
        · split at h
          · cases h; simp
          · split_ifs at h
            exact ihE _ _ _ _ h
        · split at h
          · cases h
          · rename_i m1 hq
            cases h
            exact scanStr_fail _ _ _ _ hq
        · exact scanNum_fail _ _ _ h
        · exact scanNum_fail _ _ _ h
        · exact scanNum_fail _ _ _ h
        · exact scanLit_fail _ _ _ _ h
        · exact scanLit_fail _ _ _ _ h
        · exact scanLit_fail _ _ _ _ h
        · cases h; simp
    · intro d acc s msg h
      simp only [scanMembers] at h
      split at h
      · cases h; simp
      · split_ifs at h
        · split at h
          · rename_i m1 hq
            cases h
            exact scanStr_fail _ _ _ _ hq
          · split at h
            · cases h; simp
            · split_ifs at h
              · split at h
                · rename_i m3 hv
                  cases h
                  exact ihV _ _ _ hv
                · split at h
                  · cases h; simp
                  · split_ifs at h
                    · exact ihM _ _ _ _ h
                    · cases h; simp
              · cases h; simp
        · cases h; simp
    · intro d acc s msg h
      simp only [scanElements] at h
      split at h
      · rename_i m1 hv
        cases h
        exact ihV _ _ _ hv
      · split at h
        · cases h; simp
        · split_ifs at h
          · exact ihE _ _ _ _ h
          · cases h; simp

theorem jsonDecode_blank (body : List Nat) (h : skipWS body = []) :
    jsonDecode body = ⟨⟨[]⟩, some (lit "EOF")⟩ := by
  simp only [jsonDecode, h]

theorem jsonDecode_err_EOF_iff (body : List Nat) :
    (jsonDecode body).err = some (lit "EOF") ↔ skipWS body = [] := by
  constructor
  · intro h
    rcases hs : skipWS body with _ | ⟨c, r⟩
    · rfl
    · exfalso
      simp only [jsonDecode, hs] at h
      split at h
      · rename_i msg hv
        simp only [Option.some.injEq] at h
        rcases (scan_fail _).1 _ _ _ hv with h1 | h1 | h1 <;> rw [h1] at h <;>
          exact absurd h (by decide)
      · simp only at h
        split_ifs at h
        exact absurd (Option.some.inj h) (by decide)
  · intro h
    rw [jsonDecode_blank body h]

/-- On a string that is not well-formed UTF-8 the double reversal does not
give the bytes back: the ill-formed byte has become U+FFFD. -/
theorem reverse_reverse_ill_formed : reverse (reverse [0xFF]) = [0xEF, 0xBF, 0xBD] := by
  decide

/-! ## The claims -/

/-- C1: for a string made of the Unicode scalar values of `s`, `reverse`
returns the string made of the same scalar values in the opposite order; the
two-pointer loop started at `0` and `len(runes)-1` computes the list reversal
of any rune slice; and the reversal is by character, not by byte: on a
two-byte character the result differs from the reversed byte sequence. -/
theorem reverse_scalar_sequence (s : String) :
    reverse (lit s) = lit (String.mk s.data.reverse) ∧
    decodeRunes (reverse (lit s)) = (s.data.map Char.toNat).reverse ∧
    (∀ runes : List Rune,
      reverseLoop runes.length runes 0 ((runes.length : Int) - 1) = runes.reverse) ∧
    reverse (lit "aé") = lit "éa" ∧ reverse (lit "aé") ≠ (lit "aé").reverse := by
  refine ⟨reverse_lit s, ?_, reverseLoop_eq_reverse, by decide, by decide⟩
  rw [decodeRunes_reverse, lit_eq, decodeRunes_encodeRunes _ (isScalar_of_mem_map_toNat _)]

/-- C2: reversing twice a text of Unicode characters gives the text back. -/
theorem reverse_reverse_text (s : String) : reverse (reverse (lit s)) = lit s := by
  rw [reverse_lit, reverse_lit]
  simp

/-- C3: for every string, `reverse` keeps the number of characters and the
multiset of characters (the characters of the result are a permutation of
those of the argument), and the reverse of the empty string is empty. -/
theorem reverse_length_perm (s : GoString) :
    (decodeRunes (reverse s)).length = (decodeRunes s).length ∧
    (decodeRunes (reverse s)).Perm (decodeRunes s) ∧
    Multiset.ofList (decodeRunes (reverse s)) = Multiset.ofList (decodeRunes s) ∧
    reverse [] = [] := by
  rw [decodeRunes_reverse]
  exact ⟨List.length_reverse _, List.reverse_perm _,
    Multiset.coe_eq_coe.mpr (List.reverse_perm _), rfl⟩

/-- C4: when decoding succeeds with a non-empty `word`, `ReverseWord` answers
200 with content type `application/json` and the object whose only member
`reverse_word` is the reversed word, and counts the request. -/
theorem ReverseWord_word (m : Metrics) (d : Decoded) (herr : d.err = none)
    (hword : d.word.Word ≠ []) :
    ReverseWord jsonMarshal m d =
      .done ⟨200, some (lit "application/json"),
          .json ⟨[(lit "reverse_word", reverse d.word.Word)]⟩⟩
        (m.incTotalWordsReversed.incEndpoint (lit "reverseword")) := by
  have hp : decodePanic d.err = none := by rw [herr]; rfl
  have hlen : ¬ d.word.Word.length < 1 := by
    intro h
    exact hword (List.length_eq_zero.mp (by omega))
  have hr : reverseWordOf d.word = reverse d.word.Word := by
    simp only [reverseWordOf, hlen, if_false]
  rw [ReverseWord_jsonMarshal m d hp, hr]

/-- Witness of C4: the word `hello` is answered with `reverse_word` equal to
`olleh`. -/
theorem ReverseWord_word_witness :
    ReverseWord jsonMarshal Metrics.zero ⟨⟨lit "hello"⟩, none⟩ =
      .done ⟨200, some (lit "application/json"), .json ⟨[(lit "reverse_word", lit "olleh")]⟩⟩
        (Metrics.zero.incTotalWordsReversed.incEndpoint (lit "reverseword")) :=
  ReverseWord_word Metrics.zero ⟨⟨lit "hello"⟩, none⟩ rfl (by decide)

/-- C5: when the body is empty (decoding returns `EOF` and leaves `word`
untouched) or decodes to an object without `word` or with an empty `word`,
the response is the object with `reverse_word` equal to `detceted drow oN`,
the same on both paths, and that literal is the reverse of
`No word detected`. -/
theorem ReverseWord_no_word (m : Metrics) (d : Decoded) (hword : d.word.Word = [])
    (herr : d.err = none ∨ d.err = some (lit "EOF")) :
    ReverseWord jsonMarshal m d =
      .done ⟨200, some (lit "application/json"),
          .json ⟨[(lit "reverse_word", lit "detceted drow oN")]⟩⟩
        (m.incTotalWordsReversed.incEndpoint (lit "reverseword")) ∧
    lit "detceted drow oN" = reverse (lit "No word detected") := by
  have hp : decodePanic d.err = none := by
    rcases herr with h | h <;> rw [h] <;> rfl
  have hr : reverseWordOf d.word = lit "detceted drow oN" := by
    simp [reverseWordOf, hword]
  refine ⟨?_, by decide⟩
  rw [ReverseWord_jsonMarshal m d hp, hr]

/-- Witness of C5: the empty body. -/
theorem ReverseWord_no_word_witness :
    ReverseWord jsonMarshal Metrics.zero ⟨⟨[]⟩, some (lit "EOF")⟩ =
      .done ⟨200, some (lit "application/json"),
          .json ⟨[(lit "reverse_word", lit "detceted drow oN")]⟩⟩
        (Metrics.zero.incTotalWordsReversed.incEndpoint (lit "reverseword")) ∧
    lit "detceted drow oN" = reverse (lit "No word detected") :=
  ReverseWord_no_word Metrics.zero ⟨⟨[]⟩, some (lit "EOF")⟩ rfl (Or.inr rfl)


theorem decodePanic_eq_some_iff (err : Option GoString) (e : GoString) :
    decodePanic err = some e ↔ err = some e ∧ e ≠ lit "EOF" := by
  unfold decodePanic
  cases err with
  | none => simp
  | some t =>
    by_cases h : t = lit "EOF"
    · simp only [h, ne_eq, not_true_eq_false, if_false, Option.some.injEq]
      constructor
      · intro hc; cases hc
      · rintro ⟨h1, h2⟩; exact absurd h1.symm h2
    · simp only [ne_eq, h, not_false_eq_true, if_true, Option.some.injEq]
      constructor
      · intro hc; subst hc; exact ⟨rfl, h⟩
      · rintro ⟨h1, _⟩; exact h1

theorem decodePanic_isSome_iff (err : Option GoString) :
    (decodePanic err).isSome = true ↔ ∃ e, err = some e ∧ e ≠ lit "EOF" := by
  rw [Option.isSome_iff_exists]
  exact exists_congr (fun e => decodePanic_eq_some_iff err e)

theorem ReverseWord_panicked (marshal : Output → Except GoString Json) (m : Metrics)
    (d : Decoded) : (ReverseWord marshal m d).panicked = (decodePanic d.err).isSome := by
  unfold ReverseWord
  cases decodePanic d.err with
  | some e => rfl
  | none =>
    simp only
    cases marshal ⟨reverseWordOf d.word⟩ <;> rfl

/-- The bodies named in the specification, decoded: no body, the empty
object, an empty word, and the word `hello`. -/
theorem jsonDecode_bodies :
    jsonDecode [] = ⟨⟨[]⟩, some (lit "EOF")⟩ ∧
    jsonDecode (lit "\x7b\x7d") = ⟨⟨[]⟩, none⟩ ∧
    jsonDecode (lit "\x7b\"word\": \"\"\x7d") = ⟨⟨[]⟩, none⟩ ∧
    jsonDecode (lit "\x7b\"word\": \"hello\"\x7d") = ⟨⟨lit "hello"⟩, none⟩ := by
  refine ⟨by decide, by decide, by decide, by decide⟩

theorem reverseWordOf_nil (word : Input) (h : word.Word = []) :
    reverseWordOf word = lit "detceted drow oN" := by
  simp [reverseWordOf, h]

theorem jsonDecode_blank_word (body : List Nat) (h : skipWS body = []) :
    (jsonDecode body).word.Word = [] := by
  rw [jsonDecode_blank body h]

/-- C6 as stated fails: the handler does not panic exactly on the bodies that
are not JSON and not empty. A well-formed JSON body whose `word` is a number
makes `Decode` return a type error and the handler panic; a body whose first
JSON value fits `Input` is answered with 200 although what follows makes the
body ill-formed JSON. -/
theorem panic_differs_from_ill_formed_json :
    (isJSON (lit "\x7b\"word\":123\x7d") = true ∧
      (ReverseWord jsonMarshal Metrics.zero
        (jsonDecode (lit "\x7b\"word\":123\x7d"))).panicked = true) ∧
    (isJSON (lit "\x7b\"word\":\"hello\"\x7d xyz") = false ∧
      lit "\x7b\"word\":\"hello\"\x7d xyz" ≠ [] ∧
      (ReverseWord jsonMarshal Metrics.zero
        (jsonDecode (lit "\x7b\"word\":\"hello\"\x7d xyz"))).response =
        some ⟨200, some (lit "application/json"),
          .json ⟨[(lit "reverse_word", lit "olleh")]⟩⟩) := by
  refine ⟨⟨by decide, by decide⟩, by decide, by decide, by decide⟩

/-- C6, amended: `ReverseWord` panics exactly when decoding returned an error
whose text is not `EOF`; a panic writes no response and leaves both collectors
as they were; `Decode` returns `EOF` exactly on a body that is empty up to
white space, so the handler panics exactly on the other bodies for which
`Decode` returns an error; a body that is empty up to white space never
fails: it is answered with the 200 JSON response carrying the sentinel, and
both counters are incremented. -/
theorem ReverseWord_panics_iff (marshal : Output → Except GoString Json) (m : Metrics)
    (d : Decoded) (body : GoString) :
    ((ReverseWord marshal m d).panicked = true ↔ ∃ e, d.err = some e ∧ e ≠ lit "EOF") ∧
    ((ReverseWord marshal m d).panicked = true →
      (ReverseWord marshal m d).response = none ∧
      (ReverseWord marshal m d).metrics.totalWordsReversed = m.totalWordsReversed ∧
      ∀ l, (ReverseWord marshal m d).metrics.endpointsAccessed l = m.endpointsAccessed l) ∧
    ((jsonDecode body).err = some (lit "EOF") ↔ skipWS body = []) ∧
    ((ReverseWord marshal m (jsonDecode body)).panicked = true ↔
      skipWS body ≠ [] ∧ (jsonDecode body).err ≠ none) ∧
    (skipWS body = [] →
      ReverseWord jsonMarshal m (jsonDecode body) =
        .done ⟨200, some (lit "application/json"),
            .json ⟨[(lit "reverse_word", lit "detceted drow oN")]⟩⟩
          (m.incTotalWordsReversed.incEndpoint (lit "reverseword"))) := by
  refine ⟨?_, ?_, jsonDecode_err_EOF_iff body, ?_, ?_⟩
  · rw [ReverseWord_panicked, decodePanic_isSome_iff]
  · intro h
    rw [ReverseWord_panicked] at h
    obtain ⟨e, he⟩ := Option.isSome_iff_exists.mp h
    simp only [ReverseWord, he]
    exact ⟨rfl, rfl, fun _ => rfl⟩
  · rw [ReverseWord_panicked, decodePanic_isSome_iff]
    constructor
    · rintro ⟨e, he, hne⟩
      refine ⟨fun hb => hne ?_, by rw [he]; exact Option.some_ne_none e⟩
      have := (jsonDecode_err_EOF_iff body).mpr hb
      rw [he] at this
      exact Option.some.inj this
    · rintro ⟨hb, herr⟩
      obtain ⟨e, he⟩ := Option.ne_none_iff_exists'.mp herr
      refine ⟨e, he, fun heq => hb ?_⟩
      rw [heq] at he
      exact (jsonDecode_err_EOF_iff body).mp he
  · intro h
    have hp : decodePanic (jsonDecode body).err = none := by
      rw [jsonDecode_blank body h]; rfl
    rw [ReverseWord_jsonMarshal m _ hp, reverseWordOf_nil _ (jsonDecode_blank_word body h)]

/-- Witness of C6, amended: the empty body is answered with the sentinel and
counted once in each collector. -/
theorem ReverseWord_panics_iff_witness :
    ReverseWord jsonMarshal Metrics.zero (jsonDecode []) =
      .done ⟨200, some (lit "application/json"),
          .json ⟨[(lit "reverse_word", lit "detceted drow oN")]⟩⟩
        (Metrics.zero.incTotalWordsReversed.incEndpoint (lit "reverseword")) :=
  (ReverseWord_panics_iff jsonMarshal Metrics.zero (jsonDecode []) []).2.2.2.2 rfl

theorem handle_totalWordsReversed (env : Env) (marshal : Output → Except GoString Json)
    (m : Metrics) (r : Request) :
    (handle env marshal m r).metrics.totalWordsReversed =
      m.totalWordsReversed + (if r.isReverseWord ∧ ¬ r.faults then 1 else 0) := by
  cases r with
  | getRelease => rfl
  | getHealth => rfl
  | postReverseWord d =>
    simp only [handle, Request.isReverseWord, Request.faults, ReverseWord]
    cases hp : decodePanic d.err with
    | some e => simp [Outcome.metrics]
    | none =>
      simp only
      cases marshal ⟨reverseWordOf d.word⟩ <;>
        simp [Outcome.metrics, Metrics.incTotalWordsReversed, Metrics.incEndpoint]

theorem handle_panicked (env : Env) (marshal : Output → Except GoString Json)
    (m : Metrics) (r : Request) : (handle env marshal m r).panicked = r.faults := by
  cases r with
  | getRelease => rfl
  | getHealth => rfl
  | postReverseWord d => exact ReverseWord_panicked marshal m d

theorem run_totalWordsReversed (env : Env) (marshal : Output → Except GoString Json)
    (reqs : List Request) :
    ∀ m : Metrics, (∀ r ∈ reqs, r.faults = false) →
      ∃ m1, run env marshal m reqs = some m1 ∧
        m1.totalWordsReversed = m.totalWordsReversed + reqs.countP Request.isReverseWord := by
  induction reqs with
  | nil => intro m _; exact ⟨m, rfl, by simp⟩
  | cons r rs ih =>
    intro m h
    have hr : r.faults = false := h r (by simp)
    have hp := handle_panicked env marshal m r
    have ht := handle_totalWordsReversed env marshal m r
    rw [hr] at hp
    simp only [run]
    cases ho : handle env marshal m r with
    | panic e m1 => rw [ho] at hp; cases hp
    | done resp m1 =>
      rw [ho] at ht
      simp only [Outcome.metrics] at ht
      obtain ⟨m2, h2, h3⟩ := ih m1 (fun x hx => h x (List.mem_cons_of_mem _ hx))
      refine ⟨m2, h2, ?_⟩
      rw [h3, ht, List.countP_cons]
      cases hrw : r.isReverseWord <;> simp [hrw, hr]
      omega


/-- C7: from a reversed-word counter of 0, a sequence of requests that all
complete leaves the counter at the number of `ReverseWord` requests in it, so
at N after N `ReverseWord` requests; each completing `ReverseWord` call adds
exactly one, on the word path and on the sentinel path alike, and
`ReturnRelease` and `ReturnHealth` leave the counter as it was. -/
theorem totalWordsReversed_counts (env : Env) (marshal : Output → Except GoString Json)
    (m : Metrics) (reqs : List Request) (h0 : m.totalWordsReversed = 0)
    (hc : ∀ r ∈ reqs, r.faults = false) :
    (∃ m1, run env marshal m reqs = some m1 ∧
      m1.totalWordsReversed = reqs.countP Request.isReverseWord ∧
      ((∀ r ∈ reqs, r.isReverseWord = true) → m1.totalWordsReversed = reqs.length)) ∧
    (∀ (m0 : Metrics) (d : Decoded), (ReverseWord marshal m0 d).panicked = false →
      (ReverseWord marshal m0 d).metrics.totalWordsReversed = m0.totalWordsReversed + 1) ∧
    (∀ m0 : Metrics,
      (ReturnRelease env m0).metrics.totalWordsReversed = m0.totalWordsReversed ∧
      (ReturnHealth m0).metrics.totalWordsReversed = m0.totalWordsReversed) := by
  refine ⟨?_, ?_, fun m0 => ⟨rfl, rfl⟩⟩
  · obtain ⟨m1, h1, h2⟩ := run_totalWordsReversed env marshal reqs m hc
    refine ⟨m1, h1, by rw [h2, h0, Nat.zero_add], fun hall => ?_⟩
    rw [h2, h0, Nat.zero_add]
    exact List.countP_eq_length.mpr hall
  · intro m0 d hd
    have hf : (Request.postReverseWord d).faults = false := by
      rw [← handle_panicked env marshal m0]; exact hd
    have h := handle_totalWordsReversed env marshal m0 (.postReverseWord d)
    rw [hf] at h
    simpa [handle, Request.isReverseWord] using h

/-- Witness of C7: an empty body, a word and an empty object, three requests,
counter 3. -/
theorem totalWordsReversed_counts_witness :
    ∃ m1, run (fun _ => none) jsonMarshal Metrics.zero
        [.postReverseWord ⟨⟨[]⟩, some (lit "EOF")⟩, .postReverseWord ⟨⟨lit "hello"⟩, none⟩,
          .postReverseWord ⟨⟨[]⟩, none⟩] = some m1 ∧
      m1.totalWordsReversed = 3 :=
  have h := (totalWordsReversed_counts (fun _ => none) jsonMarshal Metrics.zero
    [.postReverseWord ⟨⟨[]⟩, some (lit "EOF")⟩, .postReverseWord ⟨⟨lit "hello"⟩, none⟩,
      .postReverseWord ⟨⟨[]⟩, none⟩] rfl (by decide)).1
  h.elim fun m1 h1 => ⟨m1, h1.1, h1.2.1⟩

theorem incEndpoint_self (m : Metrics) (label : GoString) :
    (m.incEndpoint label).endpointsAccessed label = m.endpointsAccessed label + 1 := by
  simp [Metrics.incEndpoint]

theorem incEndpoint_other (m : Metrics) (label l : GoString) (h : l ≠ label) :
    (m.incEndpoint label).endpointsAccessed l = m.endpointsAccessed l := by
  simp [Metrics.incEndpoint, h]

/-- C8: `ReturnRelease`, `ReturnHealth` and every completing call of
`ReverseWord` increment the count of their own label exactly once and leave
the count of every other label as it was. Serialization of an `Output` does
not fail, so no call of `ReverseWord` ends on the 500 branch, and the counts
of the other labels are left alone by `ReverseWord` on every path, for any
serializer. -/
theorem endpointsAccessed_own_label (env : Env) (m : Metrics) (d : Decoded)
    (hc : (ReverseWord jsonMarshal m d).panicked = false) :
    ((ReturnRelease env m).metrics.endpointsAccessed (lit "release") =
        m.endpointsAccessed (lit "release") + 1 ∧
      ∀ l, l ≠ lit "release" →
        (ReturnRelease env m).metrics.endpointsAccessed l = m.endpointsAccessed l) ∧
    ((ReturnHealth m).metrics.endpointsAccessed (lit "health") =
        m.endpointsAccessed (lit "health") + 1 ∧
      ∀ l, l ≠ lit "health" →
        (ReturnHealth m).metrics.endpointsAccessed l = m.endpointsAccessed l) ∧
    ((ReverseWord jsonMarshal m d).metrics.endpointsAccessed (lit "reverseword") =
        m.endpointsAccessed (lit "reverseword") + 1 ∧
      ∀ l, l ≠ lit "reverseword" →
        (ReverseWord jsonMarshal m d).metrics.endpointsAccessed l = m.endpointsAccessed l) ∧
    (∀ resp, (ReverseWord jsonMarshal m d).response = some resp → resp.status = 200) ∧
    (∀ (marshal : Output → Except GoString Json) (l : GoString), l ≠ lit "reverseword" →
      (ReverseWord marshal m d).metrics.endpointsAccessed l = m.endpointsAccessed l) := by
  have hp : decodePanic d.err = none := by
    rw [ReverseWord_panicked] at hc
    cases hd : decodePanic d.err with
    | none => rfl
    | some e => rw [hd] at hc; cases hc
  refine ⟨⟨incEndpoint_self _ _, fun l hl => incEndpoint_other _ _ l hl⟩,
    ⟨incEndpoint_self _ _, fun l hl => incEndpoint_other _ _ l hl⟩, ?_, ?_, ?_⟩
  · rw [ReverseWord_jsonMarshal m d hp]
    exact ⟨incEndpoint_self _ _, fun l hl => incEndpoint_other _ _ l hl⟩
  · intro resp hr
    rw [ReverseWord_jsonMarshal m d hp] at hr
    cases hr
    rfl
  · intro marshal l hl
    simp only [ReverseWord, hp]
    cases marshal ⟨reverseWordOf d.word⟩ with
    | error e => rfl
    | ok js => exact incEndpoint_other _ _ l hl

/-- Witness of C8: a `hello` request on a fresh process. -/
theorem endpointsAccessed_own_label_witness :
    (ReverseWord jsonMarshal Metrics.zero ⟨⟨lit "hello"⟩, none⟩).metrics.endpointsAccessed
        (lit "reverseword") = 1 ∧
    (ReverseWord jsonMarshal Metrics.zero ⟨⟨lit "hello"⟩, none⟩).metrics.endpointsAccessed
        (lit "release") = 0 ∧
    (ReverseWord jsonMarshal Metrics.zero ⟨⟨lit "hello"⟩, none⟩).metrics.endpointsAccessed
        (lit "health") = 0 :=
  have h := (endpointsAccessed_own_label (fun _ => none) Metrics.zero
    ⟨⟨lit "hello"⟩, none⟩ rfl).2.2.1
  ⟨h.1, h.2 (lit "release") (by decide), h.2 (lit "health") (by decide)⟩

/-- C9: the body of `ReturnRelease` is `Reverse Words Release: ` followed by
`getEnv("RELEASE", "NotSet")`; `getEnv` returns the value of a variable that
is set and the default for one that is not; with `RELEASE` unset the body is
`Reverse Words Release: NotSet`. -/
theorem ReturnRelease_body (env : Env) (m : Metrics) :
    (ReturnRelease env m).response =
      some ⟨200, none,
        .text (lit "Reverse Words Release: " ++ getEnv env (lit "RELEASE") (lit "NotSet"))⟩ ∧
    (∀ name dflt value, env name = some value → getEnv env name dflt = value) ∧
    (∀ name dflt, env name = none → getEnv env name dflt = dflt) ∧
    (env (lit "RELEASE") = none →
      (ReturnRelease env m).response =
        some ⟨200, none, .text (lit "Reverse Words Release: NotSet")⟩) := by
  refine ⟨rfl, ?_, ?_, ?_⟩
  · intro name dflt value h
    simp [getEnv, h]
  · intro name dflt h
    simp [getEnv, h]
  · intro h
    have hl : lit "Reverse Words Release: " ++ lit "NotSet" = lit "Reverse Words Release: NotSet" := by
      decide
    simp only [ReturnRelease, Outcome.response, getEnv, h, hl]

/-- Witness of C9: the environment without any variable. -/
theorem ReturnRelease_body_witness :
    (ReturnRelease (fun _ => none) Metrics.zero).response =
      some ⟨200, none, .text (lit "Reverse Words Release: NotSet")⟩ :=
  (ReturnRelease_body (fun _ => none) Metrics.zero).2.2.2 rfl

/-- C10: the value computed for `reverseWord` is never empty, so whenever
`ReverseWord` completes, the serialized object has the member `reverse_word`
with that non-empty value and is not the empty object. -/
theorem ReverseWord_has_reverse_word (m : Metrics) (d : Decoded) :
    reverseWordOf d.word ≠ [] ∧
    ((ReverseWord jsonMarshal m d).panicked = false →
      (ReverseWord jsonMarshal m d).response =
        some ⟨200, some (lit "application/json"),
          .json ⟨[(lit "reverse_word", reverseWordOf d.word)]⟩⟩ ∧
      (ReverseWord jsonMarshal m d).response ≠
        some ⟨200, some (lit "application/json"), .json ⟨[]⟩⟩) := by
  refine ⟨reverseWordOf_ne_nil d.word, fun h => ?_⟩
  rw [ReverseWord_panicked] at h
  have hp : decodePanic d.err = none := by
    cases hd : decodePanic d.err with
    | none => rfl
    | some e => rw [hd] at h; cases h
  rw [ReverseWord_jsonMarshal m d hp]
  refine ⟨rfl, ?_⟩
  simp [Outcome.response]

/-- Witness of C10: the empty object as body. -/
theorem ReverseWord_has_reverse_word_witness :
    (ReverseWord jsonMarshal Metrics.zero ⟨⟨[]⟩, none⟩).response =
        some ⟨200, some (lit "application/json"),
          .json ⟨[(lit "reverse_word", reverseWordOf ⟨[]⟩)]⟩⟩ ∧
      (ReverseWord jsonMarshal Metrics.zero ⟨⟨[]⟩, none⟩).response ≠
        some ⟨200, some (lit "application/json"), .json ⟨[]⟩⟩ :=
  (ReverseWord_has_reverse_word Metrics.zero ⟨⟨[]⟩, none⟩).2 rfl

end ReverseWords
